import Mathlib

/-!
Verification of `src/main.js` (find the fake gold bar with a balance scale)

The script drives a web page.  The page is an external collaborator, so it is
embedded as explicit state (`Page`: what the script typed into the two bowls
and the list of actions it performed) together with a `World`, which says what
the result list of the page shows at each poll after a weighing.

* `getMeasurementResults` is the bounded polling loop of lines 28-55.
* `minimumWeighingsLoop` is the `while` loop of lines 106-134, started from an
  arbitrary candidate list; `minimumWeighingsAlgorithm` starts it from the
  hard-coded `[0, 1, 2, 3, 4, 5, 6, 7, 8]` of line 104.

Unbounded JavaScript loops are embedded with a fuel argument; running out of
fuel is a separate outcome, and the theorems show it never happens.
-/

namespace FetchTest

/-! ## Strings -/

/-- JavaScript `s.split(" ")` on the characters of `s`: cut at every single
space, keeping empty pieces. -/
def splitSpace : List Char → List (List Char)
  | [] => [[]]
  | c :: cs =>
    if c = ' ' then [] :: splitSpace cs
    else
      match splitSpace cs with
      | [] => [[c]]
      | p :: ps => (c :: p) :: ps

/-- The value `measurement.split(" ")[1]` of line 52-53; `none` is the JavaScript
`undefined` obtained when the text holds no space. -/
def secondPart (measurement : String) : Option String :=
  ((splitSpace measurement.toList)[1]?).map String.mk

/-! ## `getMeasurementResults` (lines 28-55) -/

/-- How a call of `getMeasurementResults` ends: it returns `parts[1]`
(`none` for `undefined`) or it throws. -/
inductive Observed where
  | value (symbol : Option String)
  | thrown (message : String)
  deriving DecidableEq, Repr

/-- A finished call of `getMeasurementResults`: how it ended, the final value of
`retries`, how often the result list was read (`page.$$eval`, line 41) and how
often `delay(500)` was awaited (line 46). -/
structure Polling where
  outcome : Observed
  retries : Nat
  reads : Nat
  delays : Nat
  deriving DecidableEq, Repr

/-- The message of line 32. -/
def timeoutMessage : String := "Timeout: Measurement result took too long"

/-- The message of the `TypeError` raised by `undefined.split(" ")` on line 52,
reached only when `measurementCount` is `0` (`weighings[-1]`). -/
def typeErrorMessage : String :=
  "Cannot read properties of undefined (reading 'split')"

/-- The `while(true)` loop of lines 30-54.  `polls i` is the list of texts that
the `i`-th read of `div.game-info ol li` returns.  `retries`, `reads` and
`delays` are the loop state; the first argument is fuel. -/
def pollLoop (polls : Nat → List String) (measurementCount : Nat) :
    Nat → Nat → Nat → Nat → Option Polling
  | 0, _, _, _ => none
  | fuel + 1, retries, reads, delays =>
    if retries ≥ 60 then
      some ⟨Observed.thrown timeoutMessage, retries, reads, delays⟩
    else
      let weighings := polls reads
      if measurementCount > weighings.length then
        pollLoop polls measurementCount fuel (retries + 1) (reads + 1) (delays + 1)
      else if measurementCount = 0 then
        some ⟨Observed.thrown typeErrorMessage, retries, reads + 1, delays⟩
      else
        match weighings[measurementCount - 1]? with
        | none => some ⟨Observed.thrown typeErrorMessage, retries, reads + 1, delays⟩
        | some measurement =>
          some ⟨Observed.value (secondPart measurement), retries, reads + 1, delays⟩

/-- The function `getMeasurementResults(page, measurementCount)`, with the page
given by what its successive reads show.  `none` only if the fuel runs out. -/
def getMeasurementResults (polls : Nat → List String) (measurementCount : Nat) :
    Option Polling :=
  pollLoop polls measurementCount 61 0 0 0

/-! ## The page and the actions of the script -/

/-- What the script does to the page, in order.  `fillLeft position number` is
one call of `fillLeftBowl`, `weigh` one click of `#weigh`, `observe k` one call
of `getMeasurementResults(page, k)`, `reset` one click of the Reset button. -/
inductive Action where
  | fillLeft (position number : Nat)
  | fillRight (position number : Nat)
  | weigh
  | observe (measurementCount : Nat)
  | reset
  deriving DecidableEq, Repr

/-- The part of the page the script writes: the bars typed into the left and
the right bowl since the last reset, and the log of all actions so far. -/
structure Page where
  left : List Nat
  right : List Nat
  log : List Action
  deriving DecidableEq, Repr

/-- The page as loaded by the main function: empty bowls, nothing done yet. -/
def freshPage : Page := ⟨[], [], []⟩

/-- What the page shows: after the `k`-th weighing, made with the bars `left`
and `right` in the bowls, the `i`-th read of the result list returns
`world k left right i`. -/
abbrev World := Nat → List Nat → List Nat → Nat → List String

/-- The function `clickWeighButton` (lines 8-10). -/
def clickWeighButton (page : Page) : Page :=
  { page with log := page.log ++ [Action.weigh] }

/-- The function `clickResetButton` (lines 16-20): the Reset button clears both
bowls. -/
def clickResetButton (page : Page) : Page :=
  { left := [], right := [], log := page.log ++ [Action.reset] }

/-- The function `fillLeftBowl` (lines 63-65). -/
def fillLeftBowl (page : Page) (position number : Nat) : Page :=
  { page with left := page.left ++ [number],
              log := page.log ++ [Action.fillLeft position number] }

/-- The function `fillRightBowl` (lines 73-75). -/
def fillRightBowl (page : Page) (position number : Nat) : Page :=
  { page with right := page.right ++ [number],
              log := page.log ++ [Action.fillRight position number] }

/-- A counting loop `for (let i = start; ...; i++) body`, run `count` times. -/
def forLoop {σ : Type} (body : Nat → σ → σ) : Nat → Nat → σ → σ
  | 0, _, s => s
  | count + 1, i, s => forLoop body count (i + 1) (body i s)

/-- The two `for` loops of lines 107-116: `bars[i]` goes to the left bowl for
`i < mid` and to the right bowl for `i` from `mid + 1` (odd length) or `mid`
(even length) up to the end.  Every index used is below `bars.length`, so the
`none` branches (JavaScript `undefined`) are never taken. -/
def loadBowls (bars : List Nat) (page : Page) : Page :=
  let mid := bars.length / 2
  let isOdd := bars.length % 2 != 0
  let page := forLoop
    (fun i p => match bars[i]? with
      | some bar => fillLeftBowl p bar bar
      | none => p) mid 0 page
  let start := if isOdd then mid + 1 else mid
  forLoop
    (fun i p => match bars[i]? with
      | some bar => fillRightBowl p bar bar
      | none => p) (bars.length - start) start page

/-- How a call of `minimumWeighingsAlgorithm` ends: it returns a bar (`none`
is `undefined`), an exception of `getMeasurementResults` passes through it, or
the fuel of the embedding ran out. -/
inductive Exit where
  | returned (bar : Option Nat)
  | threw (message : String)
  | outOfFuel
  deriving DecidableEq, Repr

/-- A finished call: how it ended, the final value of the global `bars`, the
page, and the final value of `measurementCount`. -/
structure Run where
  exit : Exit
  bars : List Nat
  page : Page
  measurementCount : Nat
  deriving DecidableEq, Repr

/-- One pass through the body of the `while` loop either ends the call or goes
back to the loop head with new values of `bars`, the page and
`measurementCount`. -/
inductive Step where
  | done (run : Run)
  | next (bars : List Nat) (page : Page) (measurementCount : Nat)
  deriving DecidableEq, Repr

/-- The body of the `while` loop, lines 107-131. -/
def loopBody (world : World) (bars : List Nat) (page : Page)
    (measurementCount : Nat) : Step :=
  let mid := bars.length / 2
  let isOdd := bars.length % 2 != 0
  let page := loadBowls bars page
  let page := clickWeighButton page
  let measurementCount := measurementCount + 1
  let page := { page with log := page.log ++ [Action.observe measurementCount] }
  match getMeasurementResults (world measurementCount page.left page.right)
      measurementCount with
  | none => Step.done ⟨Exit.outOfFuel, bars, page, measurementCount⟩
  | some polling =>
    match polling.outcome with
    | Observed.thrown message =>
      Step.done ⟨Exit.threw message, bars, page, measurementCount⟩
    | Observed.value result =>
      if result = some ">" then
        if bars.length ≤ 2 then
          Step.done ⟨Exit.returned bars[bars.length - 1]?, bars, page, measurementCount⟩
        else
          Step.next (bars.drop (if isOdd then mid + 1 else mid))
            (clickResetButton page) measurementCount
      else if result = some "<" then
        if bars.length ≤ 2 then
          Step.done ⟨Exit.returned bars[0]?, bars, page, measurementCount⟩
        else
          Step.next (bars.take mid) (clickResetButton page) measurementCount
      else
        Step.done ⟨Exit.returned bars[mid]?, bars, page, measurementCount⟩

/-- The `while` loop of lines 106-134 with the final `return bars.pop()`,
started from any candidate list.  The first argument is fuel. -/
def minimumWeighingsLoop (world : World) :
    Nat → List Nat → Page → Nat → Run
  | fuel, bars, page, measurementCount =>
    if bars.length > 1 then
      match fuel with
      | 0 => ⟨Exit.outOfFuel, bars, page, measurementCount⟩
      | fuel + 1 =>
        match loopBody world bars page measurementCount with
        | Step.done run => run
        | Step.next bars page measurementCount =>
          minimumWeighingsLoop world fuel bars page measurementCount
    else
      ⟨Exit.returned bars.getLast?, bars.dropLast, page, measurementCount⟩

/-- The function `minimumWeighingsAlgorithm(page, measurementCount)`: the loop
started from the nine bars of line 104.  Nine units of fuel, one per bar, are
enough for it (see `loop_weighings` and `loop_fuel`). -/
def minimumWeighingsAlgorithm (world : World) (page : Page)
    (measurementCount : Nat) : Run :=
  minimumWeighingsLoop world 9 [0, 1, 2, 3, 4, 5, 6, 7, 8] page measurementCount

/-- Number of clicks of the weigh button in a log. -/
def weighings (log : List Action) : Nat := log.count Action.weigh

/-- Number of clicks of the Reset button in a log. -/
def resets (log : List Action) : Nat := log.count Action.reset

/-- The state at the head of the `while` loop after `i` passes through its
body, if the call got that far. -/
def loopHead (world : World) :
    Nat → List Nat → Page → Nat → Option (List Nat × Page × Nat)
  | 0, bars, page, measurementCount => some (bars, page, measurementCount)
  | i + 1, bars, page, measurementCount =>
    if bars.length > 1 then
      match loopBody world bars page measurementCount with
      | Step.done _ => none
      | Step.next bars page measurementCount =>
        loopHead world i bars page measurementCount
    else none

/-- The slice `bars.slice(0, mid)` of line 127; the same indices are put into
the left bowl by the loop of lines 110-112. -/
def leftSlice (bars : List Nat) : List Nat :=
  bars.take (bars.length / 2)

/-- The slice `bars.slice((isOdd) ? mid + 1 : mid)` of line 124; the same
indices are put into the right bowl by the loop of lines 114-116. -/
def rightSlice (bars : List Nat) : List Nat :=
  bars.drop (if bars.length % 2 != 0 then bars.length / 2 + 1 else bars.length / 2)

/-- The page at the moment `getMeasurementResults` is called in an iteration
that started with `page`: bowls loaded, weigh clicked (lines 110-119). -/
def weighedPage (bars : List Nat) (page : Page) (measurementCount : Nat) : Page :=
  let page := clickWeighButton (loadBowls bars page)
  { page with log := page.log ++ [Action.observe (measurementCount + 1)] }

/-- What the call `getMeasurementResults(page, k)` yields after the `k`-th
weighing of `left` against `right`. -/
def observation (world : World) (k : Nat) (left right : List Nat) : Option Observed :=
  (getMeasurementResults (world k left right) k).map Polling.outcome

/-- The page answers the `k`-th weighing of `left` against `right` correctly
for the fake bar `fake`, in the sense the script relies on: `>` if `fake` is on
the right, `<` if it is on the left, and some other symbol (the balanced one)
if it is on neither side. -/
def CorrectAt (world : World) (fake k : Nat) (left right : List Nat) : Prop :=
  (fake ∈ right → fake ∉ left →
    observation world k left right = some (Observed.value (some ">"))) ∧
  (fake ∈ left → fake ∉ right →
    observation world k left right = some (Observed.value (some "<"))) ∧
  (fake ∉ left → fake ∉ right →
    ∃ s, observation world k left right = some (Observed.value s) ∧
      s ≠ some ">" ∧ s ≠ some "<")

/-- The page answers every weighing correctly for the fake bar `fake`.  The
weighings of a session are numbered from `1`. -/
def Correct (world : World) (fake : Nat) : Prop :=
  ∀ k left right, 1 ≤ k → CorrectAt world fake k left right

/-- The log without the placements of bars: weigh, observe and reset only. -/
def controls (log : List Action) : List Action :=
  log.filter fun a =>
    match a with
    | Action.fillLeft _ _ => false
    | Action.fillRight _ _ => false
    | _ => true

/-- The control actions of `j` iterations that go back to the loop head, the
first of them being weighing number `measurementCount + 1`. -/
def rounds (measurementCount : Nat) : Nat → List Action
  | 0 => []
  | j + 1 =>
    [Action.weigh, Action.observe (measurementCount + 1), Action.reset] ++
      rounds (measurementCount + 1) j

/-! ## Worlds used to run the code on concrete inputs -/

/-- A page that answers at once: its result list already holds `k` entries at
the first read after the `k`-th weighing, the last one reading `L sym R`. -/
def answering (sym : List Nat → List Nat → String) : World :=
  fun k left right _ => List.replicate k ("L " ++ sym left right ++ " R")

/-- The symbol a correct page shows for the fake bar `fake`: `>` when it lies
on the right, `<` when it lies on the left, `=` when it lies on neither side. -/
def trueSymbol (fake : Nat) (left right : List Nat) : String :=
  if fake ∈ right then ">" else if fake ∈ left then "<" else "="

/-- The page of a game whose fake bar is `fake`. -/
def honestWorld (fake : Nat) : World := answering (trueSymbol fake)

/-- The weight of the bars in a bowl when every bar weighs 10 and each `fake`
weighs 11. -/
def weight (fake : Nat) (side : List Nat) : Nat :=
  10 * side.length + side.count fake

/-- The symbol of a balance that only compares the weights of the two bowls:
`>` when the right bowl is the heavier, `<` when the left bowl is, `=` when
they weigh the same. -/
def scaleSymbol (fake : Nat) (left right : List Nat) : String :=
  if weight fake left < weight fake right then ">"
  else if weight fake right < weight fake left then "<"
  else "="

/-- The page of a game played on such a balance with the fake bar `fake`. -/
def scaleWorld (fake : Nat) : World := answering (scaleSymbol fake)

/-- A page that shows `>` when four bars lie on the left and `=` otherwise. -/
def balancedSecond : World :=
  answering fun left _ => if left.length = 4 then ">" else "="

/-- A reference strategy that is not in the source, the base-3 partition the
specification compares the script with: weigh 0, 1, 2 against 3, 4, 5, keep the
heavier third (or 6, 7, 8 when balanced), then weigh its first bar against its
second.  `scale left right` is the symbol shown for a weighing.  The result is
the chosen bar and the number of weighings made. -/
def baseThreeStrategy (scale : List Nat → List Nat → String) : Nat × Nat :=
  let first := scale [0, 1, 2] [3, 4, 5]
  let low := if first = ">" then 3 else if first = "<" then 0 else 6
  let second := scale [low] [low + 1]
  (if second = ">" then low + 1 else if second = "<" then low else low + 2, 2)

/-- A page whose result list never grows. -/
def silentWorld : World := fun _ _ _ _ => []

/-! ## The polling loop -/

theorem typeError_ne_timeout : typeErrorMessage ≠ timeoutMessage := by decide

theorem pollLoop_spec (polls : Nat → List String) (k : Nat) :
    ∀ fuel r, r ≤ 60 → 60 < fuel + r →
      ∃ p, pollLoop polls k fuel r r r = some p ∧ p.delays = p.retries ∧
        r ≤ p.retries ∧ p.retries ≤ 60 ∧
        (∀ i, r ≤ i → i < p.retries → (polls i).length < k) ∧
        ((p.outcome = Observed.thrown timeoutMessage ∧ p.retries = 60 ∧ p.reads = 60) ∨
         (p.outcome ≠ Observed.thrown timeoutMessage ∧ p.retries < 60 ∧
           p.reads = p.retries + 1 ∧ k ≤ (polls p.retries).length)) := by
  intro fuel
  induction fuel with
  | zero => intro r h1 h2; omega
  | succ fuel ih =>
    intro r h1 h2
    unfold pollLoop
    by_cases hr : r ≥ 60
    · have : r = 60 := by omega
      subst this
      simp only [ge_iff_le, le_refl, if_true]
      refine ⟨_, rfl, rfl, le_refl _, le_refl _, ?_, Or.inl ⟨rfl, rfl, rfl⟩⟩
      intro i hi1 hi2
      simp only at hi2
      omega
    · simp only [hr, if_false]
      by_cases hk : k > (polls r).length
      · simp only [hk, if_true]
        obtain ⟨p, hp, hd, hle, h60, hall, hcase⟩ := ih (r + 1) (by omega) (by omega)
        refine ⟨p, hp, hd, by omega, h60, ?_, hcase⟩
        intro i hi1 hi2
        by_cases hir : i = r
        · subst hir; exact hk
        · exact hall i (by omega) hi2
      · simp only [hk, if_false]
        have hlt : r < 60 := by omega
        have hkl : k ≤ (polls r).length := by omega
        by_cases h0 : k = 0
        · simp only [h0, if_true]
          refine ⟨_, rfl, rfl, le_refl _, h1, ?_, Or.inr ⟨?_, hlt, rfl, by simp⟩⟩
          · intro i hi1 hi2; simp at hi2; omega
          · simp only; intro h; injection h with h; exact typeError_ne_timeout h
        · simp only [h0, if_false]
          cases hm : (polls r)[k - 1]? with
          | none =>
            refine ⟨_, rfl, rfl, le_refl _, h1, ?_, Or.inr ⟨?_, hlt, rfl, hkl⟩⟩
            · intro i hi1 hi2; simp at hi2; omega
            · simp only; intro h; injection h with h; exact typeError_ne_timeout h
          | some m =>
            refine ⟨_, rfl, rfl, le_refl _, h1, ?_, Or.inr ⟨?_, hlt, rfl, hkl⟩⟩
            · intro i hi1 hi2; simp at hi2; omega
            · simp

theorem filter_range_all (P : Nat → Bool) (n : Nat) (h : ∀ i, i < n → P i = true) :
    ((List.range n).filter P).length = n := by
  rw [List.filter_eq_self.mpr]
  · simp
  · intro a ha
    exact h a (List.mem_range.mp ha)

/-- C4: for every expected index `k` (in particular `k >= 1`) and every
sequence of result lists shown at the successive reads, `getMeasurementResults`
ends; it fails with the error `Timeout: Measurement result took too long` if
and only if each of the first 60 reads shows fewer than `k` entries; it reads
the list at most 60 times, and it waits 500 ms once after each read that showed
fewer than `k` entries, so at most 60 times. -/
theorem getMeasurementResults_timeout_iff (polls : Nat → List String) (k : Nat) :
    ∃ p, getMeasurementResults polls k = some p ∧
      (p.outcome = Observed.thrown timeoutMessage ↔
        ∀ i, i < 60 → (polls i).length < k) ∧
      p.reads ≤ 60 ∧ p.delays ≤ 60 ∧
      p.delays = ((List.range p.reads).filter
        (fun i => decide ((polls i).length < k))).length := by
  obtain ⟨p, hp, hd, _, h60, hall, hcase⟩ := pollLoop_spec polls k 61 0 (by omega) (by omega)
  refine ⟨p, hp, ?_, ?_, by omega, ?_⟩
  · constructor
    · intro ho
      rcases hcase with ⟨_, hr, _⟩ | ⟨hne, _⟩
      · intro i hi; exact hall i (Nat.zero_le _) (by omega)
      · exact absurd ho hne
    · intro hforall
      rcases hcase with ⟨ho, _⟩ | ⟨_, hr, _, hk⟩
      · exact ho
      · have := hforall p.retries hr
        omega
  · rcases hcase with ⟨_, _, hr⟩ | ⟨_, hr, hreads, _⟩ <;> omega
  · rcases hcase with ⟨_, hr, hreads⟩ | ⟨_, hr, hreads, hk⟩
    · rw [hreads, filter_range_all]
      · omega
      · intro i hi; simp; exact hall i (Nat.zero_le _) (by omega)
    · rw [hreads, List.range_succ, List.filter_append, List.length_append, filter_range_all]
      · have : ¬ (polls p.retries).length < k := by omega
        simp [this, hd]
      · intro i hi; simp; exact hall i (Nat.zero_le _) hi

/-! ## Loading the bowls -/

theorem forLoop_fillLeft (bars : List Nat) :
    ∀ (count start : Nat) (page : Page),
      forLoop (fun i p => match bars[i]? with
        | some bar => fillLeftBowl p bar bar
        | none => p) count start page =
      { left := page.left ++ (bars.drop start).take count,
        right := page.right,
        log := page.log ++
          ((bars.drop start).take count).map (fun b => Action.fillLeft b b) } := by
  intro count
  induction count with
  | zero => intro start page; simp [forLoop]
  | succ count ih =>
    intro start page
    simp only [forLoop]
    rw [ih]
    by_cases h : start < bars.length
    · rw [List.getElem?_eq_getElem h, List.drop_eq_getElem_cons h]
      simp only [fillLeftBowl, List.take_succ_cons, List.map_cons, List.append_assoc,
        List.singleton_append]
    · have h1 : bars.length ≤ start := by omega
      rw [List.getElem?_eq_none h1, List.drop_eq_nil_of_le h1,
        List.drop_eq_nil_of_le (by omega : bars.length ≤ start + 1)]
      simp

theorem forLoop_fillRight (bars : List Nat) :
    ∀ (count start : Nat) (page : Page),
      forLoop (fun i p => match bars[i]? with
        | some bar => fillRightBowl p bar bar
        | none => p) count start page =
      { left := page.left,
        right := page.right ++ (bars.drop start).take count,
        log := page.log ++
          ((bars.drop start).take count).map (fun b => Action.fillRight b b) } := by
  intro count
  induction count with
  | zero => intro start page; simp [forLoop]
  | succ count ih =>
    intro start page
    simp only [forLoop]
    rw [ih]
    by_cases h : start < bars.length
    · rw [List.getElem?_eq_getElem h, List.drop_eq_getElem_cons h]
      simp only [fillRightBowl, List.take_succ_cons, List.map_cons, List.append_assoc,
        List.singleton_append]
    · have h1 : bars.length ≤ start := by omega
      rw [List.getElem?_eq_none h1, List.drop_eq_nil_of_le h1,
        List.drop_eq_nil_of_le (by omega : bars.length ≤ start + 1)]
      simp

theorem loadBowls_eq (bars : List Nat) (page : Page) :
    loadBowls bars page =
      { left := page.left ++ leftSlice bars,
        right := page.right ++ rightSlice bars,
        log := page.log ++ (leftSlice bars).map (fun b => Action.fillLeft b b) ++
          (rightSlice bars).map (fun b => Action.fillRight b b) } := by
  unfold loadBowls
  simp only [forLoop_fillLeft, forLoop_fillRight, leftSlice, rightSlice, List.drop_zero]
  have : ∀ s, List.take (bars.length - s) (List.drop s bars) = List.drop s bars := by
    intro s
    apply List.take_of_length_le
    simp
  rw [this]

/-! ## One pass through the loop body -/

theorem getMeasurementResults_some (polls : Nat → List String) (k : Nat) :
    ∃ p, getMeasurementResults polls k = some p := by
  obtain ⟨p, hp, _⟩ := pollLoop_spec polls k 61 0 (by omega) (by omega)
  exact ⟨p, hp⟩

theorem observation_some (world : World) (k : Nat) (left right : List Nat) :
    ∃ o, observation world k left right = some o := by
  obtain ⟨p, hp⟩ := getMeasurementResults_some (world k left right) k
  exact ⟨p.outcome, by simp [observation, hp]⟩

theorem weighedPage_eq (bars : List Nat) (page : Page) (mc : Nat) :
    weighedPage bars page mc =
      { left := page.left ++ leftSlice bars,
        right := page.right ++ rightSlice bars,
        log := page.log ++ (leftSlice bars).map (fun b => Action.fillLeft b b) ++
          (rightSlice bars).map (fun b => Action.fillRight b b) ++
          [Action.weigh, Action.observe (mc + 1)] } := by
  simp [weighedPage, loadBowls_eq, clickWeighButton]

theorem loopBody_eq (world : World) (bars : List Nat) (page : Page) (mc : Nat) :
    loopBody world bars page mc =
      match observation world (mc + 1) (weighedPage bars page mc).left
          (weighedPage bars page mc).right with
      | none => Step.done ⟨Exit.outOfFuel, bars, weighedPage bars page mc, mc + 1⟩
      | some (Observed.thrown message) =>
        Step.done ⟨Exit.threw message, bars, weighedPage bars page mc, mc + 1⟩
      | some (Observed.value result) =>
        if result = some ">" then
          if bars.length ≤ 2 then
            Step.done ⟨Exit.returned bars[bars.length - 1]?, bars,
              weighedPage bars page mc, mc + 1⟩
          else
            Step.next (rightSlice bars) (clickResetButton (weighedPage bars page mc)) (mc + 1)
        else if result = some "<" then
          if bars.length ≤ 2 then
            Step.done ⟨Exit.returned bars[0]?, bars, weighedPage bars page mc, mc + 1⟩
          else
            Step.next (leftSlice bars) (clickResetButton (weighedPage bars page mc)) (mc + 1)
        else
          Step.done ⟨Exit.returned bars[bars.length / 2]?, bars,
            weighedPage bars page mc, mc + 1⟩ := by
  unfold loopBody observation
  simp only [weighedPage, clickWeighButton]
  cases hg : getMeasurementResults
      (world (mc + 1) (loadBowls bars page).left (loadBowls bars page).right) (mc + 1) with
  | none => rfl
  | some p =>
    simp only [Option.map_some']
    cases hp : p.outcome with
    | thrown m => rfl
    | value result => rfl

/-! ## The two slices -/

theorem leftSlice_length (bars : List Nat) : (leftSlice bars).length = bars.length / 2 := by
  simp only [leftSlice, List.length_take]
  omega

theorem rightSlice_length (bars : List Nat) : (rightSlice bars).length = bars.length / 2 := by
  simp only [rightSlice, List.length_drop, bne_iff_ne, ne_eq]
  split <;> omega

theorem leftSlice_initial (bars : List Nat) : leftSlice bars <+: bars :=
  List.take_prefix _ _

theorem rightSlice_final (bars : List Nat) : rightSlice bars <:+ bars :=
  List.drop_suffix _ _

/-- The candidates are the left slice, then the middle bar when the length is
odd, then the right slice. -/
theorem slices_split (bars : List Nat) :
    (bars.length % 2 = 1 →
      ∃ b, bars[bars.length / 2]? = some b ∧ bars = leftSlice bars ++ b :: rightSlice bars) ∧
    (bars.length % 2 = 0 → bars = leftSlice bars ++ rightSlice bars) := by
  constructor
  · intro h
    have hlt : bars.length / 2 < bars.length := by omega
    refine ⟨bars[bars.length / 2], List.getElem?_eq_getElem hlt, ?_⟩
    have hr : rightSlice bars = bars.drop (bars.length / 2 + 1) := by
      simp [rightSlice, h]
    rw [hr, leftSlice, ← List.drop_eq_getElem_cons hlt, List.take_append_drop]
  · intro h
    have hr : rightSlice bars = bars.drop (bars.length / 2) := by
      simp [rightSlice, h]
    rw [hr, leftSlice, List.take_append_drop]

theorem slices_disjoint (bars : List Nat) (hnd : bars.Nodup) :
    ∀ b, b ∈ leftSlice bars → b ∉ rightSlice bars := by
  intro b hl hr
  rcases Nat.mod_two_eq_zero_or_one bars.length with h | h
  · have hs := (slices_split bars).2 h
    rw [hs] at hnd
    exact (List.nodup_append.mp hnd).2.2 hl hr
  · obtain ⟨m, _, hs⟩ := (slices_split bars).1 h
    rw [hs] at hnd
    exact (List.nodup_append.mp hnd).2.2 hl (List.mem_cons_of_mem _ hr)

theorem middle_not_in_slices (bars : List Nat) (hnd : bars.Nodup)
    (hodd : bars.length % 2 = 1) (b : Nat) (hb : bars[bars.length / 2]? = some b) :
    b ∉ leftSlice bars ∧ b ∉ rightSlice bars := by
  obtain ⟨m, hm, hs⟩ := (slices_split bars).1 hodd
  rw [hb] at hm
  injection hm with hm
  subst hm
  rw [hs] at hnd
  have h := List.nodup_append.mp hnd
  constructor
  · intro hl
    exact h.2.2 hl (List.mem_cons_self _ _)
  · intro hr
    exact (List.nodup_cons.mp h.2.1).1 hr

theorem mem_slices (bars : List Nat) (f : Nat) (hf : f ∈ bars) :
    f ∈ leftSlice bars ∨ f ∈ rightSlice bars ∨
      (bars.length % 2 = 1 ∧ bars[bars.length / 2]? = some f) := by
  rcases Nat.mod_two_eq_zero_or_one bars.length with h | h
  · have hs := (slices_split bars).2 h
    rw [hs] at hf
    rcases List.mem_append.mp hf with h1 | h1
    · exact Or.inl h1
    · exact Or.inr (Or.inl h1)
  · obtain ⟨m, hm, hs⟩ := (slices_split bars).1 h
    rw [hs] at hf
    rcases List.mem_append.mp hf with h1 | h1
    · exact Or.inl h1
    · rcases List.mem_cons.mp h1 with h2 | h2
      · subst h2; exact Or.inr (Or.inr ⟨h, hm⟩)
      · exact Or.inr (Or.inl h2)

/-! ## What one iteration does -/

theorem loopBody_next (world : World) (bars : List Nat) (page : Page) (mc : Nat)
    (bars' : List Nat) (page' : Page) (mc' : Nat)
    (h : loopBody world bars page mc = Step.next bars' page' mc') :
    2 < bars.length ∧ (bars' = leftSlice bars ∨ bars' = rightSlice bars) ∧
      page' = clickResetButton (weighedPage bars page mc) ∧ mc' = mc + 1 := by
  rw [loopBody_eq] at h
  split at h
  · cases h
  · cases h
  · split_ifs at h <;> cases h
    · exact ⟨by omega, Or.inr rfl, rfl, rfl⟩
    · exact ⟨by omega, Or.inl rfl, rfl, rfl⟩

theorem loopBody_done (world : World) (bars : List Nat) (page : Page) (mc : Nat)
    (run : Run) (h : loopBody world bars page mc = Step.done run) :
    run.page = weighedPage bars page mc ∧ run.measurementCount = mc + 1 ∧
      run.bars = bars ∧ run.exit ≠ Exit.outOfFuel := by
  rw [loopBody_eq] at h
  split at h
  · rename_i hobs
    obtain ⟨o, ho⟩ := observation_some world (mc + 1) (weighedPage bars page mc).left
      (weighedPage bars page mc).right
    rw [ho] at hobs
    cases hobs
  · injection h with h; subst h; simp
  · split_ifs at h <;> (injection h with h; subst h; simp)

theorem loopBody_short (world : World) (bars : List Nat) (page : Page) (mc : Nat)
    (hn : bars.length ≤ 2) : ∃ run, loopBody world bars page mc = Step.done run := by
  cases hb : loopBody world bars page mc with
  | done run => exact ⟨run, rfl⟩
  | next b p m =>
    have := (loopBody_next world bars page mc b p m hb).1
    omega

/-- With empty bowls at the loop head, the bowls at the weighing are the two
slices. -/
theorem weighedPage_bowls (bars : List Nat) (page : Page) (mc : Nat)
    (hl : page.left = []) (hr : page.right = []) :
    (weighedPage bars page mc).left = leftSlice bars ∧
      (weighedPage bars page mc).right = rightSlice bars := by
  simp [weighedPage_eq, hl, hr]

theorem two_bars (bars : List Nat) (h : bars.length = 2) : ∃ a b, bars = [a, b] := by
  match bars, h with
  | [a, b], _ => exact ⟨a, b, rfl⟩

/-- One iteration under a correct answer: either the fake bar is returned, or
the loop goes on with a slice that still holds it. -/
theorem loopBody_correct (world : World) (bars : List Nat) (page : Page) (mc f : Nat)
    (hl : page.left = []) (hr : page.right = []) (hn : 1 < bars.length)
    (hnd : bars.Nodup) (hf : f ∈ bars)
    (hc : CorrectAt world f (mc + 1) (leftSlice bars) (rightSlice bars)) :
    (∃ run, loopBody world bars page mc = Step.done run ∧
        run.exit = Exit.returned (some f)) ∨
      (∃ bars', loopBody world bars page mc =
          Step.next bars' (clickResetButton (weighedPage bars page mc)) (mc + 1) ∧
        f ∈ bars') := by
  obtain ⟨hwl, hwr⟩ := weighedPage_bowls bars page mc hl hr
  rw [loopBody_eq, hwl, hwr]
  obtain ⟨hgt, hlt, hbal⟩ := hc
  rcases mem_slices bars f hf with h1 | h1 | ⟨hodd, hmid⟩
  · have h2 := slices_disjoint bars hnd f h1
    rw [hlt h1 h2]
    have hne : ¬ (some "<" : Option String) = some ">" := by decide
    simp only [hne, if_false, if_true]
    by_cases h3 : bars.length ≤ 2
    · obtain ⟨a, b, rfl⟩ := two_bars bars (by omega)
      left
      simp only [leftSlice] at h1
      simp at h1
      subst h1
      simp
    · right
      simp only [h3, if_false]
      exact ⟨_, rfl, h1⟩
  · have h2 : f ∉ leftSlice bars := fun h => slices_disjoint bars hnd f h h1
    rw [hgt h1 h2]
    simp only [if_true]
    by_cases h3 : bars.length ≤ 2
    · obtain ⟨a, b, rfl⟩ := two_bars bars (by omega)
      left
      simp only [rightSlice] at h1
      simp at h1
      subst h1
      simp
    · right
      simp only [h3, if_false]
      exact ⟨_, rfl, h1⟩
  · obtain ⟨h2, h3⟩ := middle_not_in_slices bars hnd hodd f hmid
    obtain ⟨s, hs, hs1, hs2⟩ := hbal h2 h3
    rw [hs]
    left
    simp only [hs1, hs2, if_false]
    exact ⟨_, rfl, by simp [hmid]⟩

theorem slice_nodup (bars bars' : List Nat) (hnd : bars.Nodup)
    (h : bars' = leftSlice bars ∨ bars' = rightSlice bars) : bars'.Nodup := by
  rcases h with h | h
  · subst h; exact (leftSlice_initial bars).sublist.nodup hnd
  · subst h; exact (rightSlice_final bars).sublist.nodup hnd

theorem slice_length (bars bars' : List Nat)
    (h : bars' = leftSlice bars ∨ bars' = rightSlice bars) :
    bars'.length = bars.length / 2 := by
  rcases h with h | h
  · subst h; exact leftSlice_length bars
  · subst h; exact rightSlice_length bars

theorem clickResetButton_bowls (page : Page) :
    (clickResetButton page).left = [] ∧ (clickResetButton page).right = [] := by
  simp [clickResetButton]

/-- The loop under a correct oracle, from any page with empty bowls. -/
theorem loop_correct (world : World) (f : Nat) (hc : Correct world f) :
    ∀ (fuel : Nat) (bars : List Nat) (page : Page) (mc : Nat),
      bars.length ≤ fuel → page.left = [] → page.right = [] → bars.Nodup → f ∈ bars →
      (minimumWeighingsLoop world fuel bars page mc).exit = Exit.returned (some f) := by
  intro fuel
  induction fuel with
  | zero =>
    intro bars page mc hfuel _ _ _ hf
    have : bars = [] := List.length_eq_zero.mp (by omega)
    subst this
    simp at hf
  | succ fuel ih =>
    intro bars page mc hfuel hl hr hnd hf
    unfold minimumWeighingsLoop
    by_cases hn : bars.length > 1
    · simp only [hn, if_true]
      rcases loopBody_correct world bars page mc f hl hr hn hnd hf (hc _ _ _ (by omega)) with
        ⟨run, hrun, hexit⟩ | ⟨bars', hnext, hf'⟩
      · rw [hrun]; exact hexit
      · rw [hnext]
        obtain ⟨_, hsl, _, _⟩ := loopBody_next world bars page mc _ _ _ hnext
        have hlen := slice_length bars bars' hsl
        exact ih bars' _ _ (by omega) (clickResetButton_bowls _).1
          (clickResetButton_bowls _).2 (slice_nodup bars bars' hnd hsl) hf'
    · simp only [hn, if_false]
      match bars, hf, hn with
      | [a], hf, _ =>
        simp at hf
        subst hf
        simp
      | a :: b :: rest, _, hn => simp at hn

/-! ## Pages that answer at once -/

theorem getMeasurementResults_ready (polls : Nat → List String) (k : Nat) (m : String)
    (hk : 1 ≤ k) (hm : (polls 0)[k - 1]? = some m) :
    getMeasurementResults polls k = some ⟨Observed.value (secondPart m), 0, 1, 0⟩ := by
  have hlen : k - 1 < (polls 0).length := by
    by_contra h
    rw [List.getElem?_eq_none (by omega)] at hm
    cases hm
  have h1 : ¬ k > (polls 0).length := by omega
  have h2 : ¬ k = 0 := by omega
  simp only [getMeasurementResults, pollLoop, ge_iff_le, Nat.reduceLeDiff, if_false, h1, h2, hm,
    Nat.zero_add]

theorem observation_answering (sym : List Nat → List Nat → String) (k : Nat)
    (left right : List Nat) (hk : 1 ≤ k) :
    observation (answering sym) k left right =
      some (Observed.value (secondPart ("L " ++ sym left right ++ " R"))) := by
  have hm : (answering sym k left right 0)[k - 1]? = some ("L " ++ sym left right ++ " R") := by
    simp only [answering]
    rw [List.getElem?_eq_getElem (by simp; omega)]
    simp
  simp [observation, getMeasurementResults_ready _ k _ hk hm]

theorem honestWorld_correct (fake : Nat) : Correct (honestWorld fake) fake := by
  intro k left right hk
  simp only [CorrectAt, honestWorld, observation_answering _ k left right hk, trueSymbol]
  refine ⟨?_, ?_, ?_⟩
  · intro h1 _
    simp only [h1, if_true]
    decide
  · intro h1 h2
    simp only [h1, h2, if_true, if_false]
    decide
  · intro h1 h2
    simp only [h1, h2, if_false]
    exact ⟨_, rfl, by decide, by decide⟩

/-! ## Counting actions in the log -/

theorem weighings_append (l1 l2 : List Action) :
    weighings (l1 ++ l2) = weighings l1 + weighings l2 := by
  simp [weighings]

theorem resets_append (l1 l2 : List Action) :
    resets (l1 ++ l2) = resets l1 + resets l2 := by
  simp [resets]

theorem controls_append (l1 l2 : List Action) :
    controls (l1 ++ l2) = controls l1 ++ controls l2 := by
  simp [controls]

theorem fills_left (l : List Nat) :
    weighings (l.map (fun b => Action.fillLeft b b)) = 0 ∧
      resets (l.map (fun b => Action.fillLeft b b)) = 0 ∧
      controls (l.map (fun b => Action.fillLeft b b)) = [] := by
  induction l with
  | nil => simp [weighings, resets, controls]
  | cons a l ih =>
    obtain ⟨h1, h2, h3⟩ := ih
    simp only [weighings, resets, controls] at h1 h2 h3 ⊢
    simp [List.count_cons, List.filter_cons, h1, h2, h3]

theorem fills_right (l : List Nat) :
    weighings (l.map (fun b => Action.fillRight b b)) = 0 ∧
      resets (l.map (fun b => Action.fillRight b b)) = 0 ∧
      controls (l.map (fun b => Action.fillRight b b)) = [] := by
  induction l with
  | nil => simp [weighings, resets, controls]
  | cons a l ih =>
    obtain ⟨h1, h2, h3⟩ := ih
    simp only [weighings, resets, controls] at h1 h2 h3 ⊢
    simp [List.count_cons, List.filter_cons, h1, h2, h3]

/-- An iteration adds one weighing, no reset, and the controls weigh, observe
to the log, up to the call of `getMeasurementResults`. -/
theorem weighedPage_log (bars : List Nat) (page : Page) (mc : Nat) :
    weighings (weighedPage bars page mc).log = weighings page.log + 1 ∧
      resets (weighedPage bars page mc).log = resets page.log ∧
      controls (weighedPage bars page mc).log =
        controls page.log ++ [Action.weigh, Action.observe (mc + 1)] := by
  rw [weighedPage_eq]
  simp only [weighings_append, resets_append, controls_append, (fills_left _).1,
    (fills_left _).2.1, (fills_left _).2.2, (fills_right _).1, (fills_right _).2.1,
    (fills_right _).2.2]
  simp [weighings, resets, controls, List.count_cons]

theorem clickResetButton_log (page : Page) :
    weighings (clickResetButton page).log = weighings page.log ∧
      resets (clickResetButton page).log = resets page.log + 1 ∧
      controls (clickResetButton page).log = controls page.log ++ [Action.reset] := by
  simp [clickResetButton, weighings, resets, controls, List.count_cons]

/-! ## C2: the number of weighings -/

/-- The loop never runs out of fuel when it has one unit per bar; its weighings
are the increase of `measurementCount`, at most `log2` of the number of bars. -/
theorem loop_weighings (world : World) :
    ∀ (fuel : Nat) (bars : List Nat) (page : Page) (mc : Nat), bars.length ≤ fuel →
      (minimumWeighingsLoop world fuel bars page mc).exit ≠ Exit.outOfFuel ∧
      mc ≤ (minimumWeighingsLoop world fuel bars page mc).measurementCount ∧
      weighings (minimumWeighingsLoop world fuel bars page mc).page.log =
        weighings page.log +
          ((minimumWeighingsLoop world fuel bars page mc).measurementCount - mc) ∧
      (minimumWeighingsLoop world fuel bars page mc).measurementCount - mc ≤
        Nat.log 2 bars.length := by
  intro fuel
  induction fuel with
  | zero =>
    intro bars page mc hfuel
    have hn : ¬ bars.length > 1 := by omega
    unfold minimumWeighingsLoop
    simp [hn]
  | succ fuel ih =>
    intro bars page mc hfuel
    unfold minimumWeighingsLoop
    by_cases hn : bars.length > 1
    · simp only [hn, if_true]
      have hlog : Nat.log 2 bars.length = Nat.log 2 (bars.length / 2) + 1 :=
        Nat.log_of_one_lt_of_le (by omega) (by omega)
      cases hb : loopBody world bars page mc with
      | done run =>
        obtain ⟨hp, hm, _, hx⟩ := loopBody_done world bars page mc run hb
        simp only
        rw [hp, hm, (weighedPage_log bars page mc).1]
        exact ⟨hx, by omega, by omega, by omega⟩
      | next bars' page' mc' =>
        obtain ⟨_, hsl, hp, hm⟩ := loopBody_next world bars page mc bars' page' mc' hb
        have hlen := slice_length bars bars' hsl
        obtain ⟨h1, h2, h3, h4⟩ := ih bars' page' mc' (by omega)
        simp only
        rw [hp, (clickResetButton_log _).1, (weighedPage_log bars page mc).1, ← hp] at h3
        rw [hlen] at h4
        subst hm
        exact ⟨h1, by omega, by omega, by omega⟩
    · simp [hn]

/-- C2: for every page behaviour (so in particular under a correct oracle) and
every candidate sequence of n bars, the loop of `minimumWeighingsAlgorithm`
ends, the number of weighings it issues (clicks of weigh) is the increase of
`measurementCount`, and it is at most `ceil(log2(n))`; a sole bar is returned
without any weighing and without touching the page. -/
theorem weighings_le_clog (world : World) (fuel : Nat) (bars : List Nat)
    (measurementCount : Nat) (hfuel : bars.length ≤ fuel) :
    (minimumWeighingsLoop world fuel bars freshPage measurementCount).exit ≠ Exit.outOfFuel ∧
      measurementCount ≤
        (minimumWeighingsLoop world fuel bars freshPage measurementCount).measurementCount ∧
      weighings (minimumWeighingsLoop world fuel bars freshPage measurementCount).page.log =
        (minimumWeighingsLoop world fuel bars freshPage measurementCount).measurementCount -
          measurementCount ∧
      weighings (minimumWeighingsLoop world fuel bars freshPage measurementCount).page.log ≤
        Nat.clog 2 bars.length ∧
      (∀ b, bars = [b] →
        minimumWeighingsLoop world fuel bars freshPage measurementCount =
          ⟨Exit.returned (some b), [], freshPage, measurementCount⟩) := by
  obtain ⟨h1, h2, h3, h4⟩ := loop_weighings world fuel bars freshPage measurementCount hfuel
  have h0 : weighings freshPage.log = 0 := by simp [weighings, freshPage]
  rw [h0, Nat.zero_add] at h3
  refine ⟨h1, h2, h3, ?_, ?_⟩
  · rw [h3]
    exact le_trans h4 (Nat.log_le_clog 2 bars.length)
  · intro b hb
    subst hb
    unfold minimumWeighingsLoop
    simp

/-- Witness for C2: the nine bars of the script with the fake bar 7; the fuel
hypothesis holds and the run makes at most `ceil(log2(9)) = 4` weighings. -/
theorem weighings_le_clog_witness :
    ([0, 1, 2, 3, 4, 5, 6, 7, 8] : List Nat).length ≤ 9 ∧
      weighings (minimumWeighingsAlgorithm (honestWorld 7) freshPage 0).page.log ≤
        Nat.clog 2 ([0, 1, 2, 3, 4, 5, 6, 7, 8] : List Nat).length :=
  ⟨by decide,
    (weighings_le_clog (honestWorld 7) 9 [0, 1, 2, 3, 4, 5, 6, 7, 8] 0 (by decide)).2.2.2.1⟩

/-! ## C5 and C6: two bars, and symbols other than `>` and `<` -/

/-- C5: for every candidate sequence of exactly two bar ids (distinct or not),
every starting page and every result symbol, the loop returns after exactly
one weighing, with no reset and no reduction of `bars`: the log grows by the two
placements, the weigh click and the observation only.  It returns the last
element on `>`, the first element on `<` (and the last one on anything else). -/
theorem two_bars_one_weighing (world : World) (a b fuel measurementCount : Nat)
    (page : Page) (s : Option String) (hfuel : 2 ≤ fuel)
    (hobs : observation world (measurementCount + 1) (page.left ++ [a]) (page.right ++ [b]) =
      some (Observed.value s)) :
    minimumWeighingsLoop world fuel [a, b] page measurementCount =
        ⟨Exit.returned (some (if s = some ">" then b else if s = some "<" then a else b)),
          [a, b],
          { left := page.left ++ [a], right := page.right ++ [b],
            log := page.log ++ [Action.fillLeft a a, Action.fillRight b b, Action.weigh,
              Action.observe (measurementCount + 1)] },
          measurementCount + 1⟩ ∧
      weighings (minimumWeighingsLoop world fuel [a, b] page measurementCount).page.log =
        weighings page.log + 1 ∧
      resets (minimumWeighingsLoop world fuel [a, b] page measurementCount).page.log =
        resets page.log := by
  obtain ⟨fuel, rfl⟩ : ∃ k, fuel = k + 1 := ⟨fuel - 1, by omega⟩
  have hw : weighedPage [a, b] page measurementCount =
      { left := page.left ++ [a], right := page.right ++ [b],
        log := page.log ++ [Action.fillLeft a a, Action.fillRight b b, Action.weigh,
          Action.observe (measurementCount + 1)] } := by
    simp [weighedPage_eq, leftSlice, rightSlice]
  have hrun : minimumWeighingsLoop world (fuel + 1) [a, b] page measurementCount =
      ⟨Exit.returned (some (if s = some ">" then b else if s = some "<" then a else b)),
        [a, b], weighedPage [a, b] page measurementCount, measurementCount + 1⟩ := by
    unfold minimumWeighingsLoop
    simp only [List.length_cons, List.length_nil, Nat.reduceAdd, gt_iff_lt, Nat.one_lt_ofNat,
      if_true]
    rw [loopBody_eq, hw, hobs]
    simp only [List.length_cons, List.length_nil, Nat.reduceAdd, le_refl, if_true]
    split_ifs <;> simp
  refine ⟨by rw [hrun, hw], ?_, ?_⟩
  · rw [hrun]; exact (weighedPage_log _ _ _).1
  · rw [hrun]; exact (weighedPage_log _ _ _).2.1

/-- Witness for C5: the bars 3 and 5 with the fake bar 5. -/
theorem two_bars_one_weighing_witness :
    2 ≤ 2 ∧
      observation (honestWorld 5) (0 + 1) (freshPage.left ++ [3]) (freshPage.right ++ [5]) =
        some (Observed.value (some ">")) ∧
      (minimumWeighingsLoop (honestWorld 5) 2 [3, 5] freshPage 0).exit =
        Exit.returned (some 5) ∧
      weighings (minimumWeighingsLoop (honestWorld 5) 2 [3, 5] freshPage 0).page.log = 1 ∧
      resets (minimumWeighingsLoop (honestWorld 5) 2 [3, 5] freshPage 0).page.log = 0 :=
  have h := two_bars_one_weighing (honestWorld 5) 3 5 2 0 freshPage (some ">") (by decide)
    (by decide)
  ⟨by decide, by decide, by rw [h.1]; rfl, h.2.1, h.2.2⟩

/-- C6: for every candidate sequence of more than one bar, every starting page
and every result symbol that is neither `>` nor `<` (the balanced symbol, any
other text, or a missing token), the loop raises no error and returns
`bars[floor(n/2)]` at once: the run is the same whatever that symbol is, and its
log ends with the weigh click and the observation, without a reset or a further
weighing. -/
theorem other_symbol_returns_middle (world : World) (bars : List Nat)
    (fuel measurementCount : Nat) (page : Page) (s : Option String)
    (hn : 1 < bars.length) (hfuel : 1 ≤ fuel)
    (hobs : observation world (measurementCount + 1)
      (weighedPage bars page measurementCount).left
      (weighedPage bars page measurementCount).right = some (Observed.value s))
    (hgt : s ≠ some ">") (hlt : s ≠ some "<") :
    (∃ b, bars[bars.length / 2]? = some b ∧
      minimumWeighingsLoop world fuel bars page measurementCount =
        ⟨Exit.returned (some b), bars, weighedPage bars page measurementCount,
          measurementCount + 1⟩) ∧
      weighings (minimumWeighingsLoop world fuel bars page measurementCount).page.log =
        weighings page.log + 1 ∧
      resets (minimumWeighingsLoop world fuel bars page measurementCount).page.log =
        resets page.log ∧
      controls (minimumWeighingsLoop world fuel bars page measurementCount).page.log =
        controls page.log ++ [Action.weigh, Action.observe (measurementCount + 1)] := by
  obtain ⟨fuel, rfl⟩ : ∃ k, fuel = k + 1 := ⟨fuel - 1, by omega⟩
  have hmid : bars.length / 2 < bars.length := by omega
  have hrun : minimumWeighingsLoop world (fuel + 1) bars page measurementCount =
      ⟨Exit.returned (some bars[bars.length / 2]), bars,
        weighedPage bars page measurementCount, measurementCount + 1⟩ := by
    unfold minimumWeighingsLoop
    simp only [gt_iff_lt, hn, if_true]
    rw [loopBody_eq, hobs]
    simp only [hgt, hlt, if_false, List.getElem?_eq_getElem hmid]
  refine ⟨⟨_, List.getElem?_eq_getElem hmid, hrun⟩, ?_, ?_, ?_⟩
  · rw [hrun]; exact (weighedPage_log _ _ _).1
  · rw [hrun]; exact (weighedPage_log _ _ _).2.1
  · rw [hrun]; exact (weighedPage_log _ _ _).2.2

/-- Witness for C6: the nine bars of the script with the fake bar 4, which is
on neither side of the first weighing, and a page that shows `=` then. -/
theorem other_symbol_returns_middle_witness :
    1 < ([0, 1, 2, 3, 4, 5, 6, 7, 8] : List Nat).length ∧ 1 ≤ 9 ∧
      observation (honestWorld 4) (0 + 1)
        (weighedPage [0, 1, 2, 3, 4, 5, 6, 7, 8] freshPage 0).left
        (weighedPage [0, 1, 2, 3, 4, 5, 6, 7, 8] freshPage 0).right =
          some (Observed.value (some "=")) ∧
      (some "=" : Option String) ≠ some ">" ∧ (some "=" : Option String) ≠ some "<" ∧
      resets (minimumWeighingsAlgorithm (honestWorld 4) freshPage 0).page.log =
        resets freshPage.log :=
  ⟨by decide, by decide, by decide, by decide, by decide,
    (other_symbol_returns_middle (honestWorld 4) [0, 1, 2, 3, 4, 5, 6, 7, 8] 9 0 freshPage
      (some "=") (by decide) (by decide) (by decide) (by decide) (by decide)).2.2.1⟩

/-! ## The states at the head of the loop -/

theorem loopHead_succ (world : World) (bars0 : List Nat) (page0 : Page) (mc0 : Nat) :
    ∀ (i : Nat) (bars1 : List Nat) (page1 : Page) (mc1 : Nat),
      loopHead world (i + 1) bars0 page0 mc0 = some (bars1, page1, mc1) →
      ∃ bars page mc, loopHead world i bars0 page0 mc0 = some (bars, page, mc) ∧
        1 < bars.length ∧ loopBody world bars page mc = Step.next bars1 page1 mc1 := by
  intro i
  induction i generalizing bars0 page0 mc0 with
  | zero =>
    intro bars1 page1 mc1 h
    simp only [loopHead, Nat.zero_add] at h
    split_ifs at h with hn
    cases hb : loopBody world bars0 page0 mc0 with
    | done run => rw [hb] at h; cases h
    | next b p m =>
      rw [hb] at h
      simp only [Option.some.injEq, Prod.mk.injEq] at h
      obtain ⟨rfl, rfl, rfl⟩ := h
      exact ⟨bars0, page0, mc0, rfl, hn, hb⟩
  | succ i ih =>
    intro bars1 page1 mc1 h
    rw [loopHead] at h
    split_ifs at h with hn
    cases hb : loopBody world bars0 page0 mc0 with
    | done run => rw [hb] at h; cases h
    | next b p m =>
      rw [hb] at h
      obtain ⟨bars, page, mc, h1, h2, h3⟩ := ih b p m bars1 page1 mc1 h
      refine ⟨bars, page, mc, ?_, h2, h3⟩
      rw [loopHead]
      simp only [hn, if_true, hb]
      exact h1

/-- Every state at the head of the loop has empty bowls, and its candidates are
distinct when the initial ones are. -/
theorem loopHead_invariant (world : World) (bars0 : List Nat) (mc0 : Nat)
    (hnd : bars0.Nodup) :
    ∀ (i : Nat) (bars : List Nat) (page : Page) (mc : Nat),
      loopHead world i bars0 freshPage mc0 = some (bars, page, mc) →
      page.left = [] ∧ page.right = [] ∧ bars.Nodup ∧ bars <:+: bars0 := by
  intro i
  induction i with
  | zero =>
    intro bars page mc h
    simp only [loopHead, Option.some.injEq, Prod.mk.injEq] at h
    obtain ⟨rfl, rfl, rfl⟩ := h
    exact ⟨rfl, rfl, hnd, List.infix_refl _⟩
  | succ i ih =>
    intro bars1 page1 mc1 h
    obtain ⟨bars, page, mc, h1, _, h3⟩ := loopHead_succ world bars0 freshPage mc0 i _ _ _ h
    obtain ⟨_, _, hnd', hinf⟩ := ih bars page mc h1
    obtain ⟨_, hsl, hp, _⟩ := loopBody_next world bars page mc _ _ _ h3
    subst hp
    refine ⟨(clickResetButton_bowls _).1, (clickResetButton_bowls _).2,
      slice_nodup bars bars1 hnd' hsl, ?_⟩
    rcases hsl with h | h
    · subst h; exact (leftSlice_initial bars).isInfix.trans hinf
    · subst h; exact (rightSlice_final bars).isInfix.trans hinf

/-! ## C8: what is put on the two pans -/

/-- C8: in every iteration of the loop started from distinct bar ids on a fresh
page, with `n` candidates and `mid = floor(n/2)`: the iteration adds to the
log one placement on the left for each bar of `candidates[0..mid)`, then one
placement on the right for each bar of `candidates[mid+1..n)` (odd `n`) or
`candidates[mid..n)` (even `n`), and these are exactly the bars in the bowls
when weigh is clicked; both pans hold `mid` bars, no bar is placed twice or on
both pans, and the bars left out are exactly `candidates[mid]` when `n` is odd
and none when `n` is even. -/
theorem pans_of_iteration (world : World) (bars0 : List Nat) (mc0 i : Nat)
    (bars : List Nat) (page : Page) (mc : Nat) (hnd : bars0.Nodup)
    (hhead : loopHead world i bars0 freshPage mc0 = some (bars, page, mc)) :
    (loadBowls bars page).left = bars.take (bars.length / 2) ∧
      (loadBowls bars page).right =
        (if bars.length % 2 = 1 then bars.drop (bars.length / 2 + 1)
          else bars.drop (bars.length / 2)) ∧
      (loadBowls bars page).log =
        page.log ++ ((loadBowls bars page).left).map (fun b => Action.fillLeft b b) ++
          ((loadBowls bars page).right).map (fun b => Action.fillRight b b) ∧
      (loadBowls bars page).left.length = bars.length / 2 ∧
      (loadBowls bars page).right.length = bars.length / 2 ∧
      (loadBowls bars page).left.Nodup ∧ (loadBowls bars page).right.Nodup ∧
      (∀ b, b ∈ (loadBowls bars page).left → b ∉ (loadBowls bars page).right) ∧
      (bars.length % 2 = 1 →
        ∃ b, bars[bars.length / 2]? = some b ∧
          bars = (loadBowls bars page).left ++ b :: (loadBowls bars page).right ∧
          b ∉ (loadBowls bars page).left ∧ b ∉ (loadBowls bars page).right) ∧
      (bars.length % 2 = 0 →
        bars = (loadBowls bars page).left ++ (loadBowls bars page).right) := by
  obtain ⟨hl, hr, hnd', _⟩ := loopHead_invariant world bars0 mc0 hnd i bars page mc hhead
  have hleft : (loadBowls bars page).left = leftSlice bars := by simp [loadBowls_eq, hl]
  have hright : (loadBowls bars page).right = rightSlice bars := by simp [loadBowls_eq, hr]
  have hlog : (loadBowls bars page).log =
      page.log ++ (leftSlice bars).map (fun b => Action.fillLeft b b) ++
        (rightSlice bars).map (fun b => Action.fillRight b b) := by simp [loadBowls_eq]
  rw [hlog, hleft, hright]
  refine ⟨rfl, ?_, rfl, leftSlice_length bars, rightSlice_length bars,
    slice_nodup bars _ hnd' (Or.inl rfl), slice_nodup bars _ hnd' (Or.inr rfl),
    slices_disjoint bars hnd', ?_, (slices_split bars).2⟩
  · rcases Nat.mod_two_eq_zero_or_one bars.length with h | h <;> simp [rightSlice, h]
  · intro hodd
    obtain ⟨b, hb, hs⟩ := (slices_split bars).1 hodd
    obtain ⟨h1, h2⟩ := middle_not_in_slices bars hnd' hodd b hb
    exact ⟨b, hb, hs, h1, h2⟩

/-- Witness for C8: the second iteration on the nine bars with the fake bar 7
weighs 5, 6 against 7, 8. -/
theorem pans_of_iteration_witness :
    ([0, 1, 2, 3, 4, 5, 6, 7, 8] : List Nat).Nodup ∧
      loopHead (honestWorld 7) 1 [0, 1, 2, 3, 4, 5, 6, 7, 8] freshPage 0 =
        some ([5, 6, 7, 8], clickResetButton (weighedPage [0, 1, 2, 3, 4, 5, 6, 7, 8] freshPage 0),
          1) ∧
      (loadBowls [5, 6, 7, 8]
        (clickResetButton (weighedPage [0, 1, 2, 3, 4, 5, 6, 7, 8] freshPage 0))).left =
          [5, 6] ∧
      (loadBowls [5, 6, 7, 8]
        (clickResetButton (weighedPage [0, 1, 2, 3, 4, 5, 6, 7, 8] freshPage 0))).right =
          [7, 8] :=
  have h := pans_of_iteration (honestWorld 7) [0, 1, 2, 3, 4, 5, 6, 7, 8] 0 1 [5, 6, 7, 8]
    (clickResetButton (weighedPage [0, 1, 2, 3, 4, 5, 6, 7, 8] freshPage 0)) 1
    (by decide) (by decide)
  ⟨by decide, by decide, h.1, h.2.1⟩

/-! ## C9: the candidate set -/

/-- The fake bar stays among the candidates as long as every weighing so far was
answered correctly. -/
theorem fake_kept (world : World) (bars0 : List Nat) (mc0 fake : Nat) (hnd : bars0.Nodup)
    (hf : fake ∈ bars0) :
    ∀ (i : Nat) (bars : List Nat) (page : Page) (mc : Nat),
      loopHead world i bars0 freshPage mc0 = some (bars, page, mc) →
      (∀ j b p m, j < i → loopHead world j bars0 freshPage mc0 = some (b, p, m) →
        1 < b.length → CorrectAt world fake (m + 1) (leftSlice b) (rightSlice b)) →
      fake ∈ bars := by
  intro i
  induction i with
  | zero =>
    intro bars page mc h _
    simp only [loopHead, Option.some.injEq, Prod.mk.injEq] at h
    obtain ⟨rfl, rfl, rfl⟩ := h
    exact hf
  | succ i ih =>
    intro bars1 page1 mc1 h hc
    obtain ⟨bars, page, mc, h1, hn, h3⟩ := loopHead_succ world bars0 freshPage mc0 i _ _ _ h
    have hfb : fake ∈ bars :=
      ih bars page mc h1 (fun j b p m hj hh => hc j b p m (by omega) hh)
    obtain ⟨hl, hr, hnd', _⟩ := loopHead_invariant world bars0 mc0 hnd i bars page mc h1
    rcases loopBody_correct world bars page mc fake hl hr hn hnd' hfb
        (hc i bars page mc (by omega) h1 hn) with ⟨run, hrun, _⟩ | ⟨bars', hnext, hf'⟩
    · rw [hrun] at h3; cases h3
    · rw [hnext] at h3
      injection h3 with hb _ _
      subst hb
      exact hf'

/-- C9: in a run of the loop started from distinct bar ids on a fresh page,
whatever the page answers, the candidates after an iteration that goes back to
the loop head are a non-empty contiguous part of the candidates before it and
strictly fewer; and if every weighing so far was answered correctly for a fake
bar of the initial sequence, the fake bar is still among them. -/
theorem candidates_invariant (world : World) (bars0 : List Nat) (mc0 fake i : Nat)
    (bars : List Nat) (page : Page) (mc : Nat) (bars1 : List Nat) (page1 : Page) (mc1 : Nat)
    (hnd : bars0.Nodup)
    (hbefore : loopHead world i bars0 freshPage mc0 = some (bars, page, mc))
    (hafter : loopHead world (i + 1) bars0 freshPage mc0 = some (bars1, page1, mc1)) :
    bars1 ≠ [] ∧ bars1 <:+: bars ∧ bars1.length < bars.length ∧
      (fake ∈ bars0 →
        (∀ j b p m, j ≤ i → loopHead world j bars0 freshPage mc0 = some (b, p, m) →
          CorrectAt world fake (m + 1) (leftSlice b) (rightSlice b)) →
        fake ∈ bars1) := by
  obtain ⟨bars', page', mc', h1, _, h3⟩ :=
    loopHead_succ world bars0 freshPage mc0 i _ _ _ hafter
  rw [hbefore] at h1
  simp only [Option.some.injEq, Prod.mk.injEq] at h1
  obtain ⟨rfl, rfl, rfl⟩ := h1
  obtain ⟨hgt, hsl, _, _⟩ := loopBody_next world bars page mc _ _ _ h3
  have hlen := slice_length bars bars1 hsl
  refine ⟨?_, ?_, by omega, ?_⟩
  · intro h
    rw [h] at hlen
    simp at hlen
    omega
  · rcases hsl with h | h
    · subst h; exact (leftSlice_initial bars).isInfix
    · subst h; exact (rightSlice_final bars).isInfix
  · intro hf hc
    exact fake_kept world bars0 mc0 fake hnd hf (i + 1) bars1 page1 mc1 hafter
      (fun j b p m hj hh _ => hc j b p m (by omega) hh)

/-- Witness for C9: the first iteration on the nine bars with the fake bar 7
leaves the candidates 5, 6, 7, 8. -/
theorem candidates_invariant_witness :
    ([0, 1, 2, 3, 4, 5, 6, 7, 8] : List Nat).Nodup ∧
      loopHead (honestWorld 7) 0 [0, 1, 2, 3, 4, 5, 6, 7, 8] freshPage 0 =
        some ([0, 1, 2, 3, 4, 5, 6, 7, 8], freshPage, 0) ∧
      loopHead (honestWorld 7) (0 + 1) [0, 1, 2, 3, 4, 5, 6, 7, 8] freshPage 0 =
        some ([5, 6, 7, 8],
          clickResetButton (weighedPage [0, 1, 2, 3, 4, 5, 6, 7, 8] freshPage 0), 1) ∧
      ([5, 6, 7, 8] : List Nat) ≠ [] ∧
      ([5, 6, 7, 8] : List Nat) <:+: [0, 1, 2, 3, 4, 5, 6, 7, 8] ∧
      ([5, 6, 7, 8] : List Nat).length < ([0, 1, 2, 3, 4, 5, 6, 7, 8] : List Nat).length ∧
      7 ∈ ([5, 6, 7, 8] : List Nat) :=
  have h := candidates_invariant (honestWorld 7) [0, 1, 2, 3, 4, 5, 6, 7, 8] 0 7 0
    [0, 1, 2, 3, 4, 5, 6, 7, 8] freshPage 0 [5, 6, 7, 8]
    (clickResetButton (weighedPage [0, 1, 2, 3, 4, 5, 6, 7, 8] freshPage 0)) 1
    (by decide) (by decide) (by decide)
  ⟨by decide, by decide, by decide, h.1, h.2.1, h.2.2.1,
    h.2.2.2 (by decide) (fun _ _ _ m _ _ => honestWorld_correct 7 (m + 1) _ _ (by omega))⟩

/-! ## C7: the bar returned on a balanced result -/

/-- C7, amended: in every iteration of the loop started from distinct bar ids
on a fresh page, when the result symbol is neither `>` nor `<` the iteration
returns `candidates[mid]`, `mid = floor(n/2)`; for odd `n > 1` this bar is the
excluded middle bar, placed on neither pan in that weighing, and for even `n`
it is a bar of the right pan. -/
theorem balanced_returns_middle (world : World) (bars0 : List Nat) (mc0 i : Nat)
    (bars : List Nat) (page : Page) (mc : Nat) (s : Option String) (hnd : bars0.Nodup)
    (hhead : loopHead world i bars0 freshPage mc0 = some (bars, page, mc))
    (hn : 1 < bars.length)
    (hobs : observation world (mc + 1) (weighedPage bars page mc).left
      (weighedPage bars page mc).right = some (Observed.value s))
    (hgt : s ≠ some ">") (hlt : s ≠ some "<") :
    ∃ b, bars[bars.length / 2]? = some b ∧
      loopBody world bars page mc =
        Step.done ⟨Exit.returned (some b), bars, weighedPage bars page mc, mc + 1⟩ ∧
      (bars.length % 2 = 1 →
        b ∉ (weighedPage bars page mc).left ∧ b ∉ (weighedPage bars page mc).right) ∧
      (bars.length % 2 = 0 → b ∈ (weighedPage bars page mc).right) := by
  obtain ⟨hl, hr, hnd', _⟩ := loopHead_invariant world bars0 mc0 hnd i bars page mc hhead
  obtain ⟨hwl, hwr⟩ := weighedPage_bowls bars page mc hl hr
  have hmid : bars.length / 2 < bars.length := by omega
  refine ⟨bars[bars.length / 2], List.getElem?_eq_getElem hmid, ?_, ?_, ?_⟩
  · rw [loopBody_eq, hobs]
    simp only [hgt, hlt, if_false, List.getElem?_eq_getElem hmid]
  · intro hodd
    rw [hwl, hwr]
    exact middle_not_in_slices bars hnd' hodd _ (List.getElem?_eq_getElem hmid)
  · intro heven
    rw [hwr]
    have : rightSlice bars = bars.drop (bars.length / 2) := by simp [rightSlice, heven]
    rw [this, List.drop_eq_getElem_cons hmid]
    exact List.mem_cons_self _ _

/-- Witness for the amended C7: the nine bars with the fake bar 4. -/
theorem balanced_returns_middle_witness :
    ([0, 1, 2, 3, 4, 5, 6, 7, 8] : List Nat).Nodup ∧
      loopHead (honestWorld 4) 0 [0, 1, 2, 3, 4, 5, 6, 7, 8] freshPage 0 =
        some ([0, 1, 2, 3, 4, 5, 6, 7, 8], freshPage, 0) ∧
      1 < ([0, 1, 2, 3, 4, 5, 6, 7, 8] : List Nat).length ∧
      observation (honestWorld 4) (0 + 1)
        (weighedPage [0, 1, 2, 3, 4, 5, 6, 7, 8] freshPage 0).left
        (weighedPage [0, 1, 2, 3, 4, 5, 6, 7, 8] freshPage 0).right =
          some (Observed.value (some "=")) ∧
      (some "=" : Option String) ≠ some ">" ∧ (some "=" : Option String) ≠ some "<" ∧
      ∃ b, ([0, 1, 2, 3, 4, 5, 6, 7, 8] : List Nat)[
          ([0, 1, 2, 3, 4, 5, 6, 7, 8] : List Nat).length / 2]? = some b ∧
        loopBody (honestWorld 4) [0, 1, 2, 3, 4, 5, 6, 7, 8] freshPage 0 =
          Step.done ⟨Exit.returned (some b), [0, 1, 2, 3, 4, 5, 6, 7, 8],
            weighedPage [0, 1, 2, 3, 4, 5, 6, 7, 8] freshPage 0, 0 + 1⟩ ∧
        (([0, 1, 2, 3, 4, 5, 6, 7, 8] : List Nat).length % 2 = 1 →
          b ∉ (weighedPage [0, 1, 2, 3, 4, 5, 6, 7, 8] freshPage 0).left ∧
            b ∉ (weighedPage [0, 1, 2, 3, 4, 5, 6, 7, 8] freshPage 0).right) ∧
        (([0, 1, 2, 3, 4, 5, 6, 7, 8] : List Nat).length % 2 = 0 →
          b ∈ (weighedPage [0, 1, 2, 3, 4, 5, 6, 7, 8] freshPage 0).right) :=
  ⟨by decide, by decide, by decide, by decide, by decide, by decide,
    balanced_returns_middle (honestWorld 4) [0, 1, 2, 3, 4, 5, 6, 7, 8] 0 0
      [0, 1, 2, 3, 4, 5, 6, 7, 8] freshPage 0 (some "=") (by decide) (by decide) (by decide)
      (by decide) (by decide) (by decide)⟩

/-- C7 fails as stated: when the page shows `>` and then `=` on the nine bars,
the second weighing is 5, 6 against 7, 8, and the call returns bar 7, which
lies in the right bowl of that weighing. -/
theorem balanced_returns_middle_counterexample :
    (minimumWeighingsAlgorithm balancedSecond freshPage 0).exit = Exit.returned (some 7) ∧
      (minimumWeighingsAlgorithm balancedSecond freshPage 0).bars = [5, 6, 7, 8] ∧
      (minimumWeighingsAlgorithm balancedSecond freshPage 0).page.left = [5, 6] ∧
      (minimumWeighingsAlgorithm balancedSecond freshPage 0).page.right = [7, 8] ∧
      observation balancedSecond 2 [5, 6] [7, 8] = some (Observed.value (some "=")) ∧
      7 ∈ (minimumWeighingsAlgorithm balancedSecond freshPage 0).page.right := by
  decide

/-! ## C10: the order of weigh, observe and reset -/

theorem rounds_snoc (mc j : Nat) :
    rounds mc (j + 1) =
      rounds mc j ++ [Action.weigh, Action.observe (mc + j + 1), Action.reset] := by
  induction j generalizing mc with
  | zero => simp [rounds]
  | succ j ih =>
    rw [rounds, ih (mc + 1), rounds]
    simp [Nat.add_assoc, Nat.add_comm 1 j]

/-- A run of the loop is some iterations that go back to the loop head, followed
either by an iteration that ends the call or by the exit at the loop head. -/
theorem loop_trace (world : World) :
    ∀ (fuel : Nat) (bars : List Nat) (page : Page) (mc : Nat), bars.length ≤ fuel →
      ∃ j b p, loopHead world j bars page mc = some (b, p, mc + j) ∧
        controls p.log = controls page.log ++ rounds mc j ∧
        resets p.log = resets page.log + j ∧
        weighings p.log = weighings page.log + j ∧
        ((1 < b.length ∧ ∃ run, loopBody world b p (mc + j) = Step.done run ∧
            minimumWeighingsLoop world fuel bars page mc = run) ∨
          (b.length ≤ 1 ∧ minimumWeighingsLoop world fuel bars page mc =
            ⟨Exit.returned b.getLast?, b.dropLast, p, mc + j⟩)) := by
  intro fuel
  induction fuel with
  | zero =>
    intro bars page mc hfuel
    have hn : ¬ bars.length > 1 := by omega
    refine ⟨0, bars, page, rfl, by simp [rounds], rfl, rfl, Or.inr ⟨by omega, ?_⟩⟩
    unfold minimumWeighingsLoop
    simp [hn]
  | succ fuel ih =>
    intro bars page mc hfuel
    by_cases hn : bars.length > 1
    · cases hb : loopBody world bars page mc with
      | done run =>
        refine ⟨0, bars, page, rfl, by simp [rounds], rfl, rfl, Or.inl ⟨hn, run, hb, ?_⟩⟩
        unfold minimumWeighingsLoop
        simp only [hn, if_true, hb]
      | next bars' page' mc' =>
        obtain ⟨_, hsl, hp, hm⟩ := loopBody_next world bars page mc bars' page' mc' hb
        have hlen := slice_length bars bars' hsl
        subst hm
        obtain ⟨j, b, p, h1, h2, h3, h4, h5⟩ := ih bars' page' (mc + 1) (by omega)
        have hrun : minimumWeighingsLoop world (fuel + 1) bars page mc =
            minimumWeighingsLoop world fuel bars' page' (mc + 1) := by
          conv_lhs => unfold minimumWeighingsLoop
          simp only [hn, if_true, hb]
        have hmc : mc + 1 + j = mc + (j + 1) := by omega
        rw [hmc] at h1 h5
        refine ⟨j + 1, b, p, ?_, ?_, ?_, ?_, ?_⟩
        · rw [loopHead]
          simp only [hn, if_true, hb]
          exact h1
        · rw [h2, hp, (clickResetButton_log _).2.2, (weighedPage_log bars page mc).2.2]
          simp [rounds]
        · rw [h3, hp, (clickResetButton_log _).2.1, (weighedPage_log bars page mc).2.1]
          omega
        · rw [h4, hp, (clickResetButton_log _).1, (weighedPage_log bars page mc).1]
          omega
        · rw [hrun]
          exact h5
    · refine ⟨0, bars, page, rfl, by simp [rounds], rfl, rfl, Or.inr ⟨by omega, ?_⟩⟩
      unfold minimumWeighingsLoop
      simp [hn]

/-- The number of candidates at the head of the loop after `i` iterations. -/
theorem loopHead_length (world : World) (bars0 : List Nat) (page0 : Page) (mc0 : Nat) :
    ∀ (i : Nat) (bars : List Nat) (page : Page) (mc : Nat),
      loopHead world i bars0 page0 mc0 = some (bars, page, mc) →
      bars.length = bars0.length / 2 ^ i ∧ (0 < i → 2 < bars0.length / 2 ^ (i - 1)) := by
  intro i
  induction i with
  | zero =>
    intro bars page mc h
    simp only [loopHead, Option.some.injEq, Prod.mk.injEq] at h
    obtain ⟨rfl, rfl, rfl⟩ := h
    simp
  | succ i ih =>
    intro bars1 page1 mc1 h
    obtain ⟨bars, page, mc, h1, _, h3⟩ := loopHead_succ world bars0 page0 mc0 i _ _ _ h
    obtain ⟨hlen, _⟩ := ih bars page mc h1
    obtain ⟨hgt, hsl, _, _⟩ := loopBody_next world bars page mc _ _ _ h3
    have hlen1 := slice_length bars bars1 hsl
    refine ⟨?_, fun _ => ?_⟩
    · rw [hlen1, hlen, Nat.div_div_eq_div_mul, pow_succ]
    · simp only [Nat.add_sub_cancel]
      omega

/-- Nine candidates never shrink to fewer than two at the head of the loop. -/
theorem nine_bars_heads (world : World) (page0 : Page) (mc0 i : Nat)
    (bars : List Nat) (page : Page) (mc : Nat)
    (h : loopHead world i [0, 1, 2, 3, 4, 5, 6, 7, 8] page0 mc0 = some (bars, page, mc)) :
    1 < bars.length := by
  obtain ⟨hlen, hprev⟩ := loopHead_length world _ page0 mc0 i bars page mc h
  simp only [List.length_cons, List.length_nil, Nat.reduceAdd] at hlen hprev
  match i, hlen, hprev with
  | 0, hlen, _ => simp at hlen; omega
  | 1, hlen, _ => simp at hlen; omega
  | 2, hlen, _ => simp at hlen; omega
  | i + 3, _, hprev =>
    have h1 := hprev (by omega)
    have h2 : 9 / 2 ^ (i + 3 - 1) ≤ 9 / 2 ^ 2 :=
      Nat.div_le_div_left (Nat.pow_le_pow_right (by omega) (by omega)) (by norm_num)
    omega

theorem rounds_head (mc j : Nat) (tail : List Action) :
    (rounds mc j ++ Action.weigh :: tail)[0]? = some Action.weigh := by
  cases j <;> simp [rounds]

/-- In a log of rounds followed by a last weighing, every reset is followed at
once by a weigh click. -/
theorem reset_then_weigh (tail : List Action) (ht : Action.reset ∉ tail) :
    ∀ (j mc i : Nat),
      (rounds mc j ++ Action.weigh :: tail)[i]? = some Action.reset →
      (rounds mc j ++ Action.weigh :: tail)[i + 1]? = some Action.weigh := by
  intro j
  induction j with
  | zero =>
    intro mc i h
    simp only [rounds, List.nil_append] at h ⊢
    match i, h with
    | 0, h => simp at h
    | i + 1, h =>
      simp only [List.getElem?_cons_succ] at h
      exact absurd (List.getElem?_mem h) ht
  | succ j ih =>
    intro mc i h
    simp only [rounds, List.cons_append, List.nil_append] at h ⊢
    match i, h with
    | 0, h => simp at h
    | 1, h => simp at h
    | 2, _ =>
      simp only [List.getElem?_cons_succ]
      exact rounds_head (mc + 1) j tail
    | i + 3, h =>
      simp only [List.getElem?_cons_succ] at h ⊢
      exact ih (mc + 1) i h

/-- An iteration on more than one candidate that ends the call returns a bar or
passes on the exception of `getMeasurementResults`. -/
theorem loopBody_done_exit (world : World) (bars : List Nat) (page : Page) (mc : Nat)
    (run : Run) (hn : 1 < bars.length) (h : loopBody world bars page mc = Step.done run) :
    (∃ bar, run.exit = Exit.returned (some bar)) ∨ (∃ message, run.exit = Exit.threw message) := by
  have h0 : 0 < bars.length := by omega
  have h1 : bars.length - 1 < bars.length := by omega
  have h2 : bars.length / 2 < bars.length := by omega
  rw [loopBody_eq] at h
  split at h
  · rename_i hobs
    obtain ⟨o, ho⟩ := observation_some world (mc + 1) (weighedPage bars page mc).left
      (weighedPage bars page mc).right
    rw [ho] at hobs
    cases hobs
  · injection h with h; subst h; exact Or.inr ⟨_, rfl⟩
  · split_ifs at h <;> injection h with h <;> subst h
    · exact Or.inl ⟨bars[bars.length - 1], by simp [List.getElem?_eq_getElem h1]⟩
    · exact Or.inl ⟨bars[0], by simp [List.getElem?_eq_getElem h0]⟩
    · exact Or.inl ⟨bars[bars.length / 2], by simp [List.getElem?_eq_getElem h2]⟩

/-- C10: for every page, whatever it shows, and every starting value of
`measurementCount`, the controls that `minimumWeighingsAlgorithm` adds to the
log are `j` rounds weigh, observe, reset followed by a last weigh, observe,
after which the call returns its answer (or passes on the exception of the
last observation).  So every reset is followed at once by another weighing
before the answer, at least one weighing occurs, and the number of resets is
the number of weighings minus one. -/
theorem minimumWeighingsAlgorithm_trace (world : World) (page : Page)
    (measurementCount : Nat) :
    ∃ j,
      controls (minimumWeighingsAlgorithm world page measurementCount).page.log =
          controls page.log ++
            (rounds measurementCount j ++
              [Action.weigh, Action.observe (measurementCount + j + 1)]) ∧
        (∀ i, (rounds measurementCount j ++
              [Action.weigh, Action.observe (measurementCount + j + 1)])[i]? =
            some Action.reset →
          (rounds measurementCount j ++
              [Action.weigh, Action.observe (measurementCount + j + 1)])[i + 1]? =
            some Action.weigh) ∧
        weighings (minimumWeighingsAlgorithm world page measurementCount).page.log =
          weighings page.log + (j + 1) ∧
        resets (minimumWeighingsAlgorithm world page measurementCount).page.log =
          resets page.log + ((j + 1) - 1) ∧
        ((∃ bar, (minimumWeighingsAlgorithm world page measurementCount).exit =
            Exit.returned (some bar)) ∨
          (∃ message, (minimumWeighingsAlgorithm world page measurementCount).exit =
            Exit.threw message)) := by
  obtain ⟨j, b, p, hhead, hc, hr, hw, hcase⟩ :=
    loop_trace world 9 [0, 1, 2, 3, 4, 5, 6, 7, 8] page measurementCount (by decide)
  have hlong := nine_bars_heads world page measurementCount j b p _ hhead
  refine ⟨j, ?_, ?_, ?_, ?_, ?_⟩
  · rcases hcase with ⟨_, run, hdone, hrun⟩ | ⟨hshort, _⟩
    · obtain ⟨hp, _, _, _⟩ := loopBody_done world b p _ run hdone
      unfold minimumWeighingsAlgorithm
      rw [hrun, hp, (weighedPage_log b p _).2.2, hc, List.append_assoc]
    · omega
  · exact reset_then_weigh _ (by simp) j measurementCount
  · rcases hcase with ⟨_, run, hdone, hrun⟩ | ⟨hshort, _⟩
    · obtain ⟨hp, _, _, _⟩ := loopBody_done world b p _ run hdone
      unfold minimumWeighingsAlgorithm
      rw [hrun, hp, (weighedPage_log b p _).1, hw]
      omega
    · omega
  · rcases hcase with ⟨_, run, hdone, hrun⟩ | ⟨hshort, _⟩
    · obtain ⟨hp, _, _, _⟩ := loopBody_done world b p _ run hdone
      unfold minimumWeighingsAlgorithm
      rw [hrun, hp, (weighedPage_log b p _).2.1, hr]
      omega
    · omega
  · rcases hcase with ⟨hn, run, hdone, hrun⟩ | ⟨hshort, _⟩
    · unfold minimumWeighingsAlgorithm
      rw [hrun]
      exact loopBody_done_exit world b p _ run hn hdone
    · omega

/-! ## C3: the number of weighings on the nine bars -/

/-- C3 (the code falls short of it): with a correct page and the fake bar 7,
`minimumWeighingsAlgorithm` returns 7 after three weighings, one more than the
two weighings the claim allows. -/
theorem nine_bars_three_weighings :
    (minimumWeighingsAlgorithm (honestWorld 7) freshPage 0).exit = Exit.returned (some 7) ∧
      weighings (minimumWeighingsAlgorithm (honestWorld 7) freshPage 0).page.log = 3 ∧
      (minimumWeighingsAlgorithm (honestWorld 7) freshPage 0).measurementCount = 3 ∧
      ¬ weighings (minimumWeighingsAlgorithm (honestWorld 7) freshPage 0).page.log ≤ 2 := by
  decide

/-- Two weighings are enough for nine bars: the base-3 reference strategy finds
every fake bar with two weighings on a true scale. -/
theorem baseThreeStrategy_two_weighings :
    ∀ fake, fake < 9 → baseThreeStrategy (trueSymbol fake) = (fake, 2) := by
  decide

/-- The script needs three weighings for every fake bar but the middle one. -/
theorem nine_bars_weighings_each :
    ∀ fake, fake < 9 →
      weighings (minimumWeighingsAlgorithm (honestWorld fake) freshPage 0).page.log =
        (if fake = 4 then 1 else 3) := by
  decide

/-- Scenario C of the specification: a page that never shows a result makes the
session fail with the timeout, after one weighing. -/
theorem silent_page_times_out :
    (minimumWeighingsAlgorithm silentWorld freshPage 0).exit = Exit.threw timeoutMessage ∧
      weighings (minimumWeighingsAlgorithm silentWorld freshPage 0).page.log = 1 := by
  decide

/-! ## Fuel -/

/-- Any amount of fuel that covers one iteration per bar gives the same run. -/
theorem loop_fuel (world : World) :
    ∀ (fuel fuel' : Nat) (bars : List Nat) (page : Page) (mc : Nat),
      bars.length ≤ fuel → bars.length ≤ fuel' →
      minimumWeighingsLoop world fuel bars page mc =
        minimumWeighingsLoop world fuel' bars page mc := by
  intro fuel
  induction fuel with
  | zero =>
    intro fuel' bars page mc h _
    have hn : ¬ bars.length > 1 := by omega
    unfold minimumWeighingsLoop
    simp [hn]
  | succ fuel ih =>
    intro fuel' bars page mc h h'
    by_cases hn : bars.length > 1
    · obtain ⟨fuel', rfl⟩ : ∃ k, fuel' = k + 1 := ⟨fuel' - 1, by omega⟩
      unfold minimumWeighingsLoop
      simp only [hn, if_true]
      cases hb : loopBody world bars page mc with
      | done run => rfl
      | next bars' page' mc' =>
        obtain ⟨_, hsl, _, _⟩ := loopBody_next world bars page mc bars' page' mc' hb
        have hlen := slice_length bars bars' hsl
        exact ih fuel' bars' page' mc' (by omega) (by omega)
    · unfold minimumWeighingsLoop
      simp [hn]

/-! ## C1: the loop returns the fake bar -/

/-- On distinct bars a bowl holds the fake bar at most once, so its weight tells
whether the fake bar is in it. -/
theorem weight_nodup (fake : Nat) (side : List Nat) (hnd : side.Nodup) :
    weight fake side = 10 * side.length + (if fake ∈ side then 1 else 0) := by
  unfold weight
  by_cases h : fake ∈ side
  · simp [h, List.count_eq_one_of_mem hnd h]
  · simp [h, List.count_eq_zero_of_not_mem h]

/-- A balance answers correctly whenever the two bowls hold equally many
distinct bars. -/
theorem scaleWorld_correctAt (fake k : Nat) (left right : List Nat) (hk : 1 ≤ k)
    (hlen : left.length = right.length) (hl : left.Nodup) (hr : right.Nodup) :
    CorrectAt (scaleWorld fake) fake k left right := by
  simp only [CorrectAt, scaleWorld, observation_answering _ k left right hk, scaleSymbol,
    weight_nodup fake left hl, weight_nodup fake right hr, hlen]
  refine ⟨?_, ?_, ?_⟩
  · intro h1 h2
    simp only [h1, h2, if_true, if_false]
    simp only [Nat.add_zero, Nat.lt_add_one, if_true]
    decide
  · intro h1 h2
    simp only [h1, h2, if_true, if_false]
    simp only [Nat.add_zero, Nat.lt_add_one, if_true, Nat.not_lt_of_gt (Nat.lt_add_one _),
      if_false]
    decide
  · intro h1 h2
    simp only [h1, h2, if_false, Nat.lt_irrefl]
    exact ⟨_, rfl, by decide, by decide⟩

/-- A balance answers every weighing the loop issues on distinct bars. -/
theorem scaleWorld_heads (fake : Nat) (bars0 : List Nat) (mc0 : Nat) (hnd : bars0.Nodup) :
    ∀ j b p m, loopHead (scaleWorld fake) j bars0 freshPage mc0 = some (b, p, m) →
      1 < b.length → CorrectAt (scaleWorld fake) fake (m + 1) (leftSlice b) (rightSlice b) := by
  intro j b p m h _
  obtain ⟨_, _, hnd', _⟩ := loopHead_invariant (scaleWorld fake) bars0 mc0 hnd j b p m h
  exact scaleWorld_correctAt fake (m + 1) _ _ (by omega)
    (by rw [leftSlice_length, rightSlice_length])
    (slice_nodup b _ hnd' (Or.inl rfl)) (slice_nodup b _ hnd' (Or.inr rfl))

/-- C1: for every candidate sequence of distinct bar ids and every fake bar in it
(so the sequence has at least one bar), when the page answers every weighing
that the loop issues correctly (`>` when the fake bar is in the right group,
`<` when it is in the left group, another symbol when it is in neither), the
loop of `minimumWeighingsAlgorithm`, given fuel for one iteration per bar,
returns exactly the fake bar. -/
theorem minimumWeighingsLoop_returns_fake (world : World) (bars : List Nat)
    (fake fuel measurementCount : Nat) (hnd : bars.Nodup) (hf : fake ∈ bars)
    (hc : ∀ j b p m, loopHead world j bars freshPage measurementCount = some (b, p, m) →
      1 < b.length → CorrectAt world fake (m + 1) (leftSlice b) (rightSlice b))
    (hfuel : bars.length ≤ fuel) :
    (minimumWeighingsLoop world fuel bars freshPage measurementCount).exit =
      Exit.returned (some fake) := by
  obtain ⟨j, b, p, hhead, _, _, _, hcase⟩ :=
    loop_trace world fuel bars freshPage measurementCount hfuel
  have hfb : fake ∈ b :=
    fake_kept world bars measurementCount fake hnd hf j b p _ hhead
      (fun i b' p' m' _ hh hlen => hc i b' p' m' hh hlen)
  obtain ⟨hl, hr, hnd', _⟩ :=
    loopHead_invariant world bars measurementCount hnd j b p _ hhead
  rcases hcase with ⟨hn, run, hdone, hrun⟩ | ⟨hshort, hrun⟩
  · rw [hrun]
    rcases loopBody_correct world b p _ fake hl hr hn hnd' hfb (hc j b p _ hhead hn) with
      ⟨run', hrun', hexit⟩ | ⟨bars', hnext, _⟩
    · rw [hdone] at hrun'
      injection hrun' with hrun'
      rw [hrun']
      exact hexit
    · rw [hdone] at hnext
      cases hnext
  · rw [hrun]
    match b, hfb, hshort with
    | [a], hfb, _ =>
      simp at hfb
      subst hfb
      simp
    | a :: c :: rest, _, hshort => simp at hshort

/-- Witness for C1: on the nine bars of the script and a balance,
`minimumWeighingsAlgorithm` returns 7 when the fake bar is 7 and 4 when the
fake bar is 4. -/
theorem minimumWeighingsLoop_returns_fake_witness :
    ([0, 1, 2, 3, 4, 5, 6, 7, 8] : List Nat).Nodup ∧
      7 ∈ ([0, 1, 2, 3, 4, 5, 6, 7, 8] : List Nat) ∧
      4 ∈ ([0, 1, 2, 3, 4, 5, 6, 7, 8] : List Nat) ∧
      (∀ j b p m,
        loopHead (scaleWorld 7) j [0, 1, 2, 3, 4, 5, 6, 7, 8] freshPage 0 = some (b, p, m) →
        1 < b.length → CorrectAt (scaleWorld 7) 7 (m + 1) (leftSlice b) (rightSlice b)) ∧
      (∀ j b p m,
        loopHead (scaleWorld 4) j [0, 1, 2, 3, 4, 5, 6, 7, 8] freshPage 0 = some (b, p, m) →
        1 < b.length → CorrectAt (scaleWorld 4) 4 (m + 1) (leftSlice b) (rightSlice b)) ∧
      ([0, 1, 2, 3, 4, 5, 6, 7, 8] : List Nat).length ≤ 9 ∧
      (minimumWeighingsAlgorithm (scaleWorld 7) freshPage 0).exit = Exit.returned (some 7) ∧
      (minimumWeighingsAlgorithm (scaleWorld 4) freshPage 0).exit = Exit.returned (some 4) :=
  ⟨by decide, by decide, by decide,
    scaleWorld_heads 7 [0, 1, 2, 3, 4, 5, 6, 7, 8] 0 (by decide),
    scaleWorld_heads 4 [0, 1, 2, 3, 4, 5, 6, 7, 8] 0 (by decide), by decide,
    minimumWeighingsLoop_returns_fake (scaleWorld 7) [0, 1, 2, 3, 4, 5, 6, 7, 8] 7 9 0
      (by decide) (by decide) (scaleWorld_heads 7 [0, 1, 2, 3, 4, 5, 6, 7, 8] 0 (by decide))
      (by decide),
    minimumWeighingsLoop_returns_fake (scaleWorld 4) [0, 1, 2, 3, 4, 5, 6, 7, 8] 4 9 0
      (by decide) (by decide) (scaleWorld_heads 4 [0, 1, 2, 3, 4, 5, 6, 7, 8] 0 (by decide))
      (by decide)⟩

/-- A balance does not give the membership answer for bowls of unequal size,
yet the script finds every fake bar on it. -/
theorem scaleWorld_finds_every_fake :
    ¬ Correct (scaleWorld 7) 7 ∧
      ∀ fake, fake < 9 →
        (minimumWeighingsAlgorithm (scaleWorld fake) freshPage 0).exit =
          Exit.returned (some fake) := by
  refine ⟨fun h => ?_, by decide⟩
  have h1 := (h 1 [0, 1] [7] (by decide)).1 (by decide) (by decide)
  revert h1
  decide

end FetchTest
